import Mathlib

/-!
Verification of the KZG polynomial-commitment benchmark repository.

The elliptic-curve pairing groups G1, G2, GT of a pairing engine are cyclic of
prime order r (the scalar-field order), hence isomorphic to ZMod r as
ZMod r-modules, and the bilinear pairing corresponds to multiplication in the
scalar field under these isomorphisms.  We therefore embed every group element
by its discrete logarithm with respect to a fixed generator: group elements are
scalars of the field `F`, scalar multiplication is field multiplication, and
the pairing is `fun a b => a * b` (GT written additively).  Every equality of
group-element expressions built from group operations, scalar multiplications
and pairings is preserved and reflected by this embedding, so theorems proved
here hold of the original code and vice versa.

Polynomials are dense little-endian coefficient lists, exactly as the `coeffs`
vector of arkworks' `DensePolynomial`.  External library routines (dense
polynomial division, FFT over a radix-2 evaluation domain, MSM) are embedded by
their documented contracts, which the source relies on.
-/

set_option linter.unusedSectionVars false

deriving instance DecidableEq for Except

namespace PCB

variable {F : Type} [Field F] [DecidableEq F]

/-- Sum of `f 0, …, f (n-1)`, as a computable list sum. -/
def sumL (n : Nat) (f : Nat → F) : F := ((List.range n).map f).sum

/-- Embeds `VariableBaseMSM::multi_scalar_mul(bases, scalars)` in the discrete-log
model: the dot product of the scalar list against the base list (the zip
truncates at the shorter list, as the iterator zip in the MSM does). -/
def msmF (bases scalars : List F) : F :=
  (List.zipWith (fun s b => s * b) scalars bases).sum

/-- Horner evaluation of a little-endian coefficient list, the evaluation
contract of `DensePolynomial::evaluate` / `evaluate_le`. -/
def evalPoly (p : List F) (z : F) : F := p.foldr (fun c acc => c + acc * z) 0

/-- Embeds `resize(m, zero)` on a vector: truncate or zero-pad to length `m`. -/
def resizeL (xs : List F) (m : Nat) : List F :=
  xs.take m ++ List.replicate (m - xs.length) 0

/-- Embeds `DensePolynomial::from_coefficients_vec` drops zero coefficients at the
high-degree end of the vector. -/
def truncTrailingZeros (p : List F) : List F :=
  (p.reverse.dropWhile (fun c => decide (c = 0))).reverse

/-- One turn of the synthetic-division loop of the streaming
`CommitterKey::open`: prepend `c + previous * z` where `previous` is the last
coefficient inserted (the head of the accumulator). -/
def synthDivStep (z c : F) (acc : List F) : List F := (c + acc.headD 0 * z) :: acc

/-- The full quotient list built by the streaming `CommitterKey::open` loop,
iterating over the coefficients from the highest down (hence `foldr`). Its head
is the evaluation, its tail the quotient by `(x - z)`. -/
def synthAll (p : List F) (z : F) : List F := p.foldr (synthDivStep z) []

/-- Dense polynomial long division with quotient and remainder, the contract of
arkworks' `divide_with_q_and_r` (used through the `Div` impl on
`DensePolynomial` and through `poly_div_q_r`): repeatedly cancel the leading
coefficient of the running remainder against the leading coefficient of the
divisor, writing quotient coefficient `lead` at degree
`deg remainder - deg divisor`. -/
def polyDivAux (fuel : Nat) (f g : List F) : List F × List F :=
  match fuel with
  | 0 => ([], f)
  | fuel + 1 =>
    if f.length < g.length ∨ f.length = 0 then ([], f)
    else
      let lead := f.getLastD 0 * (g.getLastD 0)⁻¹
      let k := f.length - g.length
      let shifted := List.replicate k 0 ++ g.map (fun c => lead * c)
      let f2 := (List.zipWith (fun x y => x - y) f shifted).dropLast
      let qr := polyDivAux fuel f2 g
      ((qr.1 ++ List.replicate (k + 1 - qr.1.length) 0).set k lead, qr.2)

/-- Each division round shortens the running remainder by one coefficient, so
`f.length` rounds always suffice; the fuel is never the binding constraint. -/
def polyDivQR (f g : List F) : List F × List F := polyDivAux f.length f g

/-- Naive dense polynomial multiplication (convolution), the contract of
`naive_mul` / `Mul` on `DensePolynomial`. -/
def mulPoly (a b : List F) : List F :=
  if a.isEmpty ∨ b.isEmpty then []
  else (List.range (a.length + b.length - 1)).map
    (fun k => sumL (k + 1) (fun i => a.getD i 0 * b.getD (k - i) 0))

/-- Coefficientwise sum of two coefficient vectors, padding the shorter with
zeros (`Add` on `DensePolynomial`, before its trailing-zero truncation). -/
def addPolyRaw : List F → List F → List F
  | [], b => b
  | a, [] => a
  | a :: as, b :: bs => (a + b) :: addPolyRaw as bs

/-- Embeds `Add` on `DensePolynomial`: coefficientwise sum, trailing zeros dropped. -/
def addPoly (a b : List F) : List F := truncTrailingZeros (addPolyRaw a b)

/-- Coefficientwise difference (`Sub` on `DensePolynomial`), trailing zeros
dropped. -/
def subPoly (a b : List F) : List F :=
  truncTrailingZeros ((List.range (max a.length b.length)).map
    (fun i => a.getD i 0 - b.getD i 0))

/-- Scalar multiple of a coefficient vector (`Mul<F>` on `DensePolynomial`). -/
def scalePoly (c : F) (p : List F) : List F := p.map (fun a => c * a)

/-! ## KZG10 core (`src/ark/kzg/mod.rs`, `src/ark/kzg/data_structures.rs`) -/

/-- The error enum of `src/ark/kzg/mod.rs`. -/
inductive Error where
  | DegreeIsZero
  | UnsupportedDegreeBound (bound : Nat)
  | IncorrectDegreeBound
  | TooManyCoefficients (num_coefficients num_powers : Nat)
deriving DecidableEq

/-- Embeds `UniversalParams`: the SRS.  Group elements are embedded by discrete log;
`prepared_h`/`prepared_beta_h` are pairing-ready copies of `h`/`beta_h` and
carry no extra information, so they are not repeated here. -/
structure UniversalParams (F : Type) where
  powers_of_g : List F
  powers_of_gamma_g : List F
  h : F
  beta_h : F
deriving DecidableEq

/-- Embeds `Powers`: the trimmed committer key. -/
structure Powers (F : Type) where
  powers_of_g : List F
  powers_of_gamma_g : List F
deriving DecidableEq

/-- Embeds `Powers::size`. -/
def Powers.size (p : Powers F) : Nat := p.powers_of_g.length

/-- Embeds `VerifierKey` (discrete-log embedding; the prepared fields are copies). -/
structure VerifierKey (F : Type) where
  g : F
  gamma_g : F
  h : F
  beta_h : F
deriving DecidableEq

/-- The bilinear pairing in the discrete-log model: `e(a·G1, b·G2)` is
`(a*b)·e(G1,G2)`, and GT is written additively. -/
def pairing (a b : F) : F := a * b

/-- Embeds `Commitment::add_assign((f, other))` from `data_structures.rs`:
`self := f * other + self` on the underlying group elements (discrete-log
embedding of `other.0.mul(f).add_assign_mixed(&self.0)`). -/
def Commitment.add_assign (self : F) (f other : F) : F := f * other + self

namespace KZG10

/-- Embeds `KZG10::check_degree_is_too_large`. -/
def check_degree_is_too_large (degree num_powers : Nat) : Except Error Unit :=
  if degree + 1 > num_powers then
    .error (.TooManyCoefficients (degree + 1) num_powers)
  else .ok ()

/-- Embeds `DensePolynomial::degree` reads `coeffs.len() - 1` (0 for the zero
polynomial). -/
def degreeL (p : List F) : Nat := p.length - 1

/-- The count of zero coefficients at the low-degree end of the vector, as the
while loop of `skip_leading_zeros_and_convert_to_bigints` computes it. -/
def numLeadingZeros (p : List F) : Nat :=
  (p.takeWhile (fun c => decide (c = 0))).length

/-- Embeds `KZG10::setup(max_degree, _, rng)`.  The randomness (the secret `beta` and
the three random generators `g`, `gamma_g`, `h`) is passed explicitly.
`powers_of_g[i] = beta^i * g` for `i = 0..=max_degree`; `powers_of_gamma_g`
gets one extra power; `beta_h = beta * h`. -/
def setup (max_degree : Nat) (beta g gamma_g h : F) :
    Except Error (UniversalParams F) :=
  if max_degree < 1 then .error .DegreeIsZero
  else .ok
    { powers_of_g := (List.range (max_degree + 1)).map (fun i => beta ^ i * g)
      powers_of_gamma_g :=
        (List.range (max_degree + 2)).map (fun i => beta ^ i * gamma_g)
      h := h
      beta_h := beta * h }

/-- Embeds `KZG10::trim`: bump a supported degree of 1 to 2, truncate the powers to
`supported_degree + 1` entries, and keep the first powers plus `h`, `beta_h`
for the verifier.  (The slice `[..=supported_degree]` out of range would panic;
all theorems below stay in range.) -/
def trim (pp : UniversalParams F) (supported_degree : Nat) :
    Except Error (Powers F × VerifierKey F) :=
  let d := if supported_degree = 1 then 2 else supported_degree
  .ok
    ({ powers_of_g := pp.powers_of_g.take (d + 1)
       powers_of_gamma_g := pp.powers_of_gamma_g.take (d + 1) },
     { g := pp.powers_of_g.headD 0
       gamma_g := pp.powers_of_gamma_g.headD 0
       h := pp.h
       beta_h := pp.beta_h })

/-- Embeds `KZG10::commit`: check the degree, skip low-order zero coefficients, then
MSM the remaining coefficients against the matching tail of `powers_of_g`. -/
def commit (powers : Powers F) (p : List F) : Except Error F :=
  match check_degree_is_too_large (degreeL p) powers.size with
  | .error e => .error e
  | .ok _ =>
    let k := numLeadingZeros p
    .ok (msmF (powers.powers_of_g.drop k) (p.drop k))

/-- Embeds `KZG10::compute_witness_polynomial`: the quotient of `p` by `(x - point)`,
computed by the library's dense division. -/
def compute_witness_polynomial (p : List F) (point : F) :
    Except Error (List F) :=
  .ok (polyDivQR p [-point, 1]).1

/-- Embeds `KZG10::open_with_witness_polynomial`. -/
def open_with_witness_polynomial (powers : Powers F) (witness_polynomial : List F) :
    Except Error F :=
  match check_degree_is_too_large (degreeL witness_polynomial) powers.size with
  | .error e => .error e
  | .ok _ =>
    let k := numLeadingZeros witness_polynomial
    .ok (msmF (powers.powers_of_g.drop k) (witness_polynomial.drop k))

/-- Embeds `KZG10::open`. -/
def openPoly (powers : Powers F) (p : List F) (point : F) : Except Error F :=
  match check_degree_is_too_large (degreeL p) powers.size with
  | .error e => .error e
  | .ok _ =>
    match compute_witness_polynomial p point with
    | .error e => .error e
    | .ok w => open_with_witness_polynomial powers w

/-- Embeds `KZG10::check`: the pairing equation
`e(comm - value*g, h) = e(proof_w, beta_h - point*h)`. -/
def check (vk : VerifierKey F) (comm : F) (point value : F) (proof_w : F) :
    Except Error Bool :=
  .ok (decide (pairing (comm - vk.g * value) vk.h =
               pairing proof_w (vk.beta_h - vk.h * point)))

/-- The accumulation loop of `KZG10::batch_check`: `r` is the current
randomizer (initially one), and `rands` the stream of 128-bit field elements
the RNG produces; the next randomizer is drawn at the end of each turn.
Returns `(total_c, total_w, g_multiplier)`. -/
def batchLoop : List (F × F × F × F) → F → List F → F × F × F
  | [], _, _ => (0, 0, 0)
  | (c, z, v, w) :: rest, r, rands =>
    let acc := batchLoop rest (rands.headD 0) rands.tail
    (acc.1 + r * (w * z + c), acc.2.1 + r * w, acc.2.2 + r * v)

/-- Embeds `KZG10::batch_check`: accumulate the tuples with the randomizer sequence
`1, rands[0], rands[1], …`, subtract `g * g_multiplier` (the `gamma_g`
multiplier stays zero), and accept iff the product of the two pairings
`e(-total_w, beta_h) * e(total_c, h)` is the identity of GT. -/
def batch_check (vk : VerifierKey F) (commitments points values proofs : List F)
    (rands : List F) : Except Error Bool :=
  let tuples := (commitments.zip (points.zip (values.zip proofs)))
  let acc := batchLoop tuples 1 rands
  let total_c := acc.1 - vk.g * acc.2.2 - vk.gamma_g * 0
  let total_w := acc.2.1
  .ok (decide (pairing (-total_w) vk.beta_h + pairing total_c vk.h = 0))

/-- The batching loop as the spec describes it: every tuple, including the
first, uses a freshly drawn randomizer from the stream. -/
def batchLoopFreshSpec : List (F × F × F × F) → List F → F × F × F
  | [], _ => (0, 0, 0)
  | (c, z, v, w) :: rest, rands =>
    let r := rands.headD 0
    let acc := batchLoopFreshSpec rest rands.tail
    (acc.1 + r * (w * z + c), acc.2.1 + r * w, acc.2.2 + r * v)

/-- Spec variant: `batch_check` as the spec describes it (a fresh randomizer for every
tuple); compared against the code's `batch_check` in claim C2. -/
def batch_check_fresh_spec (vk : VerifierKey F)
    (commitments points values proofs : List F) (rands : List F) :
    Except Error Bool :=
  let tuples := (commitments.zip (points.zip (values.zip proofs)))
  let acc := batchLoopFreshSpec tuples rands
  let total_c := acc.1 - vk.g * acc.2.2 - vk.gamma_g * 0
  let total_w := acc.2.1
  .ok (decide (pairing (-total_w) vk.beta_h + pairing total_c vk.h = 0))

end KZG10

/-! ## Radix-2 evaluation domains and the erasure-encoding primitive
(`src/ark/enc_bench.rs`) -/

/-- Embeds `Radix2EvaluationDomain`: size, the generator root of unity, its inverse,
and the inverse of the size, exactly the fields the FFT routines read. -/
structure Domain (F : Type) where
  size : Nat
  group_gen : F
  group_gen_inv : F
  size_inv : F
deriving DecidableEq

/-- The forward DFT contract of `Radix2EvaluationDomain::fft_in_place`: the
buffer is resized to the domain size, and entry `i` of the result is
`sum_j coeffs[j] * group_gen^(i*j)` — evaluation at the `i`-th root of
unity. -/
def fft_in_place (d : Domain F) (xs : List F) : List F :=
  (List.range d.size).map
    (fun i => sumL d.size (fun j => (resizeL xs d.size).getD j 0 * d.group_gen ^ (i * j)))

/-- The inverse DFT contract of `Radix2EvaluationDomain::ifft_in_place`: the
buffer is resized to the domain size, and coefficient `j` of the result is
`size_inv * sum_i evals[i] * group_gen_inv^(i*j)`. -/
def ifft_in_place (d : Domain F) (xs : List F) : List F :=
  (List.range d.size).map
    (fun j => d.size_inv * sumL d.size (fun i => (resizeL xs d.size).getD i 0 * d.group_gen_inv ^ (i * j)))

/-- Embeds `ArkEncFieldBench::erasure_encode` (`src/ark/enc_bench.rs`): assert that
the sub-domain size equals the input length; assert
`sub_domain.size() % sub_domain.size() == 0` (the literal check the source
performs — its comment says "Domain a must divide domain b"); then IFFT on the
sub-domain, resize to the big domain's size, and FFT on the big domain.
`none` models an assertion panic. -/
def erasure_encode (pts : List F) (sub_domain big_domain : Domain F) :
    Option (List F) :=
  if sub_domain.size ≠ pts.length then none
  else if sub_domain.size % sub_domain.size ≠ 0 then none
  else some (fft_in_place big_domain
    (resizeL (ifft_in_place sub_domain pts) big_domain.size))

/-- Embeds `PlonkKZG::erasure_encode` (`src/plonk_kzg/mod.rs`): same pipeline, but
this sibling implementation asserts `big_domain.size() % sub_domain.size()
== 0`. -/
def plonk_erasure_encode (pts : List F) (sub_domain big_domain : Domain F) :
    Option (List F) :=
  if sub_domain.size ≠ pts.length then none
  else if big_domain.size % sub_domain.size ≠ 0 then none
  else some (fft_in_place big_domain
    (resizeL (ifft_in_place sub_domain pts) big_domain.size))

/-! ## Streaming KZG, time-efficient committer
(`src/ark/streaming_kzg/time.rs`).

The module root `streaming_kzg/mod.rs` (holding `powers`, `msm`,
`linear_combination` and `vanishing_polynomial`) is not in the sources, so
those helpers are modelled from the spec below. -/

namespace StreamingKzg

/-- Modelled from the spec: `powers(x, n)` from the missing
`streaming_kzg/mod.rs` — the consecutive powers `[1, x, …, x^(n-1)]` used for
challenge aggregation (`Σ ηⁱ·polyᵢ`). -/
def powersL (x : F) (n : Nat) : List F := (List.range n).map (fun i => x ^ i)

/-- Modelled from the spec: `msm(bases, scalars)` from the missing
`streaming_kzg/mod.rs` — a plain multi-scalar multiplication, a dot product in
the discrete-log model. -/
def msm (bases scalars : List F) : F := msmF bases scalars

/-- Modelled from the spec: `linear_combination(polynomials, challenges)` from
the missing `streaming_kzg/mod.rs` — `Σ challenges[i] · polynomials[i]`
coefficientwise, `None` iff no polynomials are given. -/
def linear_combination (polys : List (List F)) (coeffs : List F) :
    Option (List F) :=
  match polys with
  | [] => none
  | _ :: _ =>
    some ((List.zipWith (fun c p => scalePoly c p) coeffs polys).foldr
      addPolyRaw [])

/-- Modelled from the spec: `vanishing_polynomial(points)` from the missing
`streaming_kzg/mod.rs` — the monic polynomial `Π (x - pᵢ)`, built by repeated
multiplication. -/
def vanishing_polynomial (pts : List F) : List F :=
  pts.foldl (fun acc p => mulPoly acc [-p, 1]) [1]

/-- The streaming `CommitterKey`: `max_degree + 1` powers of tau in G1 and
`max_eval_points + 1` powers of tau in G2 (discrete-log embedding). -/
structure CommitterKey (F : Type) where
  powers_of_g : List F
  powers_of_g2 : List F
deriving DecidableEq

/-- Embeds `CommitterKey::new(max_degree, max_eval_points, rng)` with the sampled
secret `tau` and the generators passed explicitly. -/
def CommitterKey.new (max_degree max_eval_points : Nat) (tau g g2 : F) :
    CommitterKey F :=
  { powers_of_g := (List.range (max_degree + 1)).map (fun i => tau ^ i * g)
    powers_of_g2 :=
      ((List.range (max_degree + 1)).map (fun i => tau ^ i * g2)).take
        (max_eval_points + 1) }

/-- Embeds `CommitterKey::max_eval_points`. -/
def CommitterKey.max_eval_points (ck : CommitterKey F) : Nat :=
  ck.powers_of_g2.length - 1

/-- Embeds `CommitterKey::commit`: an MSM of the coefficients against `powers_of_g`
(no degree check in this implementation). -/
def CommitterKey.commit (ck : CommitterKey F) (polynomial : List F) : F :=
  msm ck.powers_of_g polynomial

/-- Embeds `CommitterKey::open`: synthetic (Horner) division of the coefficient list
by `(x - evaluation_point)`; the first entry of the built list is the
evaluation (`0` for an empty polynomial), the rest is the quotient, which is
committed as the evaluation proof. -/
def CommitterKey.openPoly (ck : CommitterKey F) (polynomial : List F)
    (evaluation_point : F) : F × F :=
  let quotient := synthAll polynomial evaluation_point
  (quotient.headD 0, msm ck.powers_of_g quotient.tail)

/-- Embeds `CommitterKey::open_multi_points`: build the vanishing polynomial over the
evaluation points, divide the polynomial by it (dense division, remainder
discarded), and commit the quotient. `from_coefficients_slice` drops trailing
zero coefficients of the input first. -/
def CommitterKey.open_multi_points (ck : CommitterKey F) (polynomial : List F)
    (eval_points : List F) : F :=
  let z_poly := vanishing_polynomial eval_points
  let f_poly := truncTrailingZeros polynomial
  let q_poly := (polyDivQR f_poly z_poly).1
  ck.commit q_poly

/-- Embeds `CommitterKey::batch_open_multi_points`: assert
`eval_points.len() < powers_of_g2.len()` (`none` models the assertion panic),
aggregate the polynomials by powers of the challenge, and delegate to
`open_multi_points`. -/
def CommitterKey.batch_open_multi_points (ck : CommitterKey F)
    (polynomials : List (List F)) (eval_points : List F) (eval_chal : F) :
    Option F :=
  if eval_points.length < ck.powers_of_g2.length then
    let etas := powersL eval_chal polynomials.length
    let batched := (linear_combination polynomials etas).getD [0]
    some (ck.open_multi_points batched eval_points)
  else none

end StreamingKzg

/-! ## Multiproof method 2 (`src/ark/kzg_multiproof/method2.rs`).

The module root `kzg_multiproof/mod.rs` (holding `Error`, `gen_powers`,
`gen_curve_powers`, `curve_msm`, `poly_div_q_r`, `lagrange_interp` and
`vanishing_polynomial`) is not in the sources, so those are modelled from the
spec below. -/

namespace Method2

/-- Modelled from the spec: the error enum of the missing
`kzg_multiproof/mod.rs`.  `NoPolynomialsGiven` is "multiproof aggregation
called with an empty polynomial set"; the other constructors stand for the
remaining structural failures (an MSM given more scalars than bases, division
by the zero polynomial), which are distinct from `NoPolynomialsGiven`. -/
inductive MpError where
  | NoPolynomialsGiven
  | TooManyScalars
  | DivisorIsZero
deriving DecidableEq

/-- Modelled from the spec: `gen_powers(x, n)` — `[1, x, …, x^(n-1)]`. -/
def gen_powers (x : F) (n : Nat) : List F := StreamingKzg.powersL x n

/-- Modelled from the spec: `linear_combination` — as in the streaming module,
`None` iff the polynomial set is empty. -/
def linear_combination (polys : List (List F)) (coeffs : List F) :
    Option (List F) :=
  StreamingKzg.linear_combination polys coeffs

/-- Modelled from the spec: `vanishing_polynomial` — `Π (x - pᵢ)`. -/
def vanishing_polynomial (pts : List F) : List F :=
  StreamingKzg.vanishing_polynomial pts

/-- Modelled from the spec: `curve_msm(bases, scalars)` — an MSM that fails
(with an error other than `NoPolynomialsGiven`) when there are more scalars
than bases. -/
def curve_msm (bases scalars : List F) : Except MpError F :=
  if bases.length < scalars.length then .error .TooManyScalars
  else .ok (msmF bases scalars)

/-- Modelled from the spec: `poly_div_q_r` — dense division returning quotient
and remainder, failing on a zero divisor (an error other than
`NoPolynomialsGiven`). -/
def poly_div_q_r (f g : List F) : Except MpError (List F × List F) :=
  if g = [] then .error .DivisorIsZero else .ok (polyDivQR f g)

/-- Modelled from the spec: `lagrange_interp(evals, pts)` — for each row of
claimed evaluations, the Lagrange interpolation polynomial through
`(pts[j], evals[j])`. -/
def lagrange_basis (pts : List F) (j : Nat) : List F :=
  scalePoly
    (((List.range pts.length).filter (fun k => k ≠ j)).map
      (fun k => (pts.getD j 0 - pts.getD k 0)⁻¹)).prod
    (((List.range pts.length).filter (fun k => k ≠ j)).foldl
      (fun acc k => mulPoly acc [-(pts.getD k 0), 1]) [1])

/-- Modelled from the spec: one interpolated polynomial per evaluation row. -/
def lagrange_interp (evals : List (List F)) (pts : List F) : List (List F) :=
  evals.map (fun ev =>
    (List.range pts.length).foldr
      (fun j acc => addPolyRaw (scalePoly (ev.getD j 0) (lagrange_basis pts j)) acc) [])

/-- The method-2 `Setup`: powers of the secret in G1 and (a prefix of them) in
G2, discrete-log embedding of `Setup::new(max_degree, max_pts, rng)`. -/
structure Setup (F : Type) where
  powers_of_g1 : List F
  powers_of_g2 : List F
deriving DecidableEq

/-- Embeds `Setup::new` with the sampled secret `x` and generators explicit:
`num_scalars = max_degree + 1` powers in G1, the first `max_pts + 1` of the
same powers in G2. -/
def Setup.new (max_degree max_pts : Nat) (x g1 g2 : F) : Setup F :=
  { powers_of_g1 := (List.range (max_degree + 1)).map (fun i => x ^ i * g1)
    powers_of_g2 :=
      ((List.range (max_degree + 1)).map (fun i => x ^ i * g2)).take
        (max_pts + 1) }

/-- Embeds `Setup::commit`. -/
def Setup.commit (s : Setup F) (poly : List F) : Except MpError F :=
  (curve_msm s.powers_of_g1 poly).map id

/-- Embeds `Setup::open`: aggregate the polynomials by powers of `gamma`, divide by
the vanishing polynomial over the points, commit the quotient (`w_1`); then
form `L = gamma_fis - gamma_ri(z) - h·Z(z)`, divide by `(x - chal_z)` and
commit the quotient (`w_2`). -/
def Setup.openM (s : Setup F) (polys : List (List F)) (points : List F)
    (gamma chal_z : F) : Except MpError (F × F) := do
  let gammas := gen_powers gamma s.powers_of_g1.length
  let gamma_fis ← match linear_combination polys gammas with
    | none => Except.error MpError.NoPolynomialsGiven
    | some v => Except.ok v
  let z_s := vanishing_polynomial points
  let qr ← poly_div_q_r gamma_fis z_s
  let h := qr.1
  let gamma_ris_over_zs := qr.2
  let w_1 ← curve_msm s.powers_of_g1 h
  let gamma_ri_z := evalPoly (mulPoly gamma_ris_over_zs z_s) chal_z
  let f_z := subPoly gamma_fis [gamma_ri_z]
  let l := subPoly f_z (scalePoly (evalPoly z_s chal_z) h)
  let l_quotient := (polyDivQR l [-chal_z, 1]).1
  let w_2 ← curve_msm s.powers_of_g1 l_quotient
  return (w_1, w_2)

/-- Embeds `Setup::verify`: recompute the vanishing polynomial and its value at
`chal_z`, Lagrange-interpolate each row of evaluations, aggregate them by
powers of `gamma` and evaluate at `chal_z`; aggregate the commitments by the
same powers; then check the pairing equation
`e(gamma_cm - gamma_ris_z·g1 - w1·Z(z), g2) = e(w2, x·g2 - z·g2)`. -/
def Setup.verify (s : Setup F) (commits : List F) (pts : List F)
    (evals : List (List F)) (proof : F × F) (gamma chal_z : F) :
    Except MpError Bool := do
  let zeros := vanishing_polynomial pts
  let zeros_z := evalPoly zeros chal_z
  let gammas := gen_powers gamma evals.length
  let ri_s := lagrange_interp evals pts
  let gamma_ris ← match linear_combination ri_s gammas with
    | none => Except.error MpError.NoPolynomialsGiven
    | some v => Except.ok v
  let gamma_ris_z := evalPoly gamma_ris chal_z
  let gamma_ris_z_pt := s.powers_of_g1.getD 0 0 * gamma_ris_z
  let gamma_cm_pt ← curve_msm commits gammas
  let f := gamma_cm_pt - gamma_ris_z_pt - proof.1 * zeros_z
  let g2 := s.powers_of_g2.getD 0 0
  let g2x := s.powers_of_g2.getD 1 0
  let x_minus_z := g2x - g2 * chal_z
  return decide (pairing f g2 = pairing proof.2 x_minus_z)

end Method2

/-! ## Grid pipeline (`src/ark/grid_bench.rs`) -/

namespace Grid

/-- The grid benchmark `Setup`: a trimmed KZG committer key and the two
evaluation domains of sizes `n` and `2n`. -/
structure Setup (F : Type) where
  powers : Powers F
  domain_n : Domain F
  domain_2n : Domain F

/-- Embeds `KzgGridBench::extend_grid`: for each column, collect it, IFFT on the
small domain, FFT on the double domain (which zero-pads to size `2n`), and
write the result into the corresponding column of the row-doubled grid. -/
def extend_grid (s : Setup F) (g : List (List F)) : List (List F) :=
  let extCol := fun j =>
    fft_in_place s.domain_2n
      (ifft_in_place s.domain_n
        ((List.range g.length).map (fun i => (g.getD i []).getD j 0)))
  (List.range (2 * g.length)).map
    (fun i => (List.range g.length).map (fun j => (extCol j).getD i 0))

/-- Embeds `KzgGridBench::make_commits`: commit every even-indexed row of the
extended grid (its coefficient vector taken as a dense polynomial), then
extend the commitment vector itself by IFFT on the small domain followed by
FFT on the double domain.  `none` models the `expect` panic on a commit
error. -/
def make_commits (s : Setup F) (g : List (List F)) : Option (List F) :=
  match ((List.range (g.length / 2)).map
      (fun i => KZG10.commit s.powers (g.getD (2 * i) []))).mapM Except.toOption with
  | none => none
  | some commits =>
    some (fft_in_place s.domain_2n (ifft_in_place s.domain_n commits))

end Grid

/-! ## A concrete scalar field for witnesses.

`ZMod 97` is a prime field whose multiplicative group has order `96 = 2^5 * 3`,
so it carries radix-2 evaluation domains up to size 32: `22` is a primitive
4th root of unity (`22^2 = -1`), `33` a primitive 8th root (`33^2 = 22`), and
`96 = -1` the primitive square root. -/

instance fact_prime_97 : Fact (Nat.Prime 97) := ⟨by norm_num⟩

abbrev Fq : Type := ZMod 97

/-! ## Bridge lemmas: list sums, resizing, MSM -/

lemma sumL_eq (n : Nat) (f : Nat → F) : sumL n f = ∑ i in Finset.range n, f i := by
  induction n with
  | zero => simp [sumL]
  | succ n ih =>
    rw [sumL, List.range_succ, List.map_append, List.sum_append,
      Finset.sum_range_succ, ← sumL, ih]
    simp

lemma getD_map_range {α : Type} {i n : Nat} (f : Nat → α) (d : α) (h : i < n) :
    ((List.range n).map f).getD i d = f i := by
  rw [List.getD_eq_getElem?_getD, List.getElem?_map, List.getElem?_range h]
  rfl

lemma resizeL_getD (xs : List F) (m j : Nat) :
    (resizeL xs m).getD j 0 = if j < m then xs.getD j 0 else 0 := by
  unfold resizeL
  rcases lt_or_ge j m with hj | hj
  · rcases lt_or_ge j xs.length with hx | hx
    · rw [List.getD_eq_getElem?_getD, List.getElem?_append_left (by simp; omega),
        List.getElem?_take_of_lt hj, ← List.getD_eq_getElem?_getD, if_pos hj]
    · have h1 : (xs.take m).length = xs.length := by simp; omega
      rw [List.getD_eq_getElem?_getD, List.getElem?_append_right (by omega),
        List.getElem?_replicate]
      have hnone : xs[j]? = none := List.getElem?_eq_none_iff.mpr hx
      rw [if_pos hj, List.getD_eq_getElem?_getD, hnone]
      split <;> simp
  · have hlen : (xs.take m ++ List.replicate (m - xs.length) (0 : F)).length ≤ j := by
      simp
      omega
    rw [List.getD_eq_getElem?_getD, List.getElem?_eq_none_iff.mpr hlen, if_neg (by omega)]
    rfl

lemma resizeL_length (xs : List F) (m : Nat) : (resizeL xs m).length = m := by
  simp [resizeL]
  omega

lemma msmF_cons (b s : F) (bs ss : List F) :
    msmF (b :: bs) (s :: ss) = s * b + msmF bs ss := by
  simp [msmF]

lemma msmF_nil_left (ss : List F) : msmF [] ss = 0 := by
  cases ss <;> simp [msmF]

lemma msmF_nil_right (bs : List F) : msmF bs [] = 0 := by
  cases bs <;> simp [msmF]

/-- The value of an MSM of a coefficient list against the powers
`[c, βc, β²c, …]`: it is `p(β) * c`, provided the powers list is long
enough. -/
lemma msmF_geometric (β c : F) (p : List F) (n : Nat) (hn : p.length ≤ n) :
    msmF ((List.range n).map (fun i => β ^ i * c)) p = evalPoly p β * c := by
  induction p generalizing c n with
  | nil => simp [msmF_nil_right, evalPoly]
  | cons a t ih =>
    cases n with
    | zero => simp at hn
    | succ m =>
      rw [List.range_succ_eq_map, List.map_cons, List.map_map, msmF_cons]
      have hfun : ((fun i => β ^ i * c) ∘ Nat.succ) = fun i => β ^ i * (β * c) := by
        funext i
        simp [Function.comp, pow_succ]
        ring
      rw [hfun, ih (β * c) m (by simpa using hn)]
      simp [evalPoly]
      ring

/-- Skipping the zero coefficients at the low end of the polynomial, together
with the matching prefix of the bases, does not change the MSM value. -/
lemma msmF_drop_leading (p bases : List F) :
    msmF (bases.drop (KZG10.numLeadingZeros p)) (p.drop (KZG10.numLeadingZeros p)) =
      msmF bases p := by
  induction p generalizing bases with
  | nil => simp [KZG10.numLeadingZeros]
  | cons a t ih =>
    by_cases ha : a = 0
    · subst ha
      have hk : KZG10.numLeadingZeros (0 :: t) = KZG10.numLeadingZeros t + 1 := by
        simp [KZG10.numLeadingZeros, List.takeWhile]
      rw [hk]
      cases bases with
      | nil => simp [msmF_nil_left, msmF]
      | cons b bs =>
        rw [List.drop_succ_cons, List.drop_succ_cons, msmF_cons, ih bs]
        ring
    · have hk : KZG10.numLeadingZeros (a :: t) = 0 := by
        simp [KZG10.numLeadingZeros, List.takeWhile, ha]
      rw [hk]
      simp

/-! ## The synthetic-division loop of the streaming `open` -/

lemma evalPoly_nil (z : F) : evalPoly [] z = 0 := rfl

lemma evalPoly_cons (a : F) (t : List F) (z : F) :
    evalPoly (a :: t) z = a + evalPoly t z * z := rfl

lemma synthAll_nil (z : F) : synthAll ([] : List F) z = [] := rfl

lemma synthAll_cons (c : F) (t : List F) (z : F) :
    synthAll (c :: t) z = (c + (synthAll t z).headD 0 * z) :: synthAll t z := rfl

lemma synthAll_length (p : List F) (z : F) : (synthAll p z).length = p.length := by
  induction p with
  | nil => rfl
  | cons a t ih => rw [synthAll_cons, List.length_cons, List.length_cons, ih]

/-- The head of the synthetic-division list is the Horner evaluation of the
polynomial. -/
lemma synthAll_headD (p : List F) (z : F) :
    (synthAll p z).headD 0 = evalPoly p z := by
  induction p with
  | nil => rfl
  | cons a t ih => rw [synthAll_cons, List.headD_cons, evalPoly_cons, ih]

lemma evalPoly_synthAll (p : List F) (z x : F) :
    evalPoly (synthAll p z) x =
      evalPoly p z + evalPoly ((synthAll p z).tail) x * x := by
  cases p with
  | nil => simp [synthAll_nil, evalPoly_nil]
  | cons a t =>
    rw [synthAll_cons, evalPoly_cons, List.tail_cons]
    have := synthAll_headD (a :: t) z
    rw [synthAll_cons, List.headD_cons] at this
    rw [this]

/-- The division identity for the synthetic quotient: for every `x`,
`p(x) = (x - z) * q(x) + p(z)` where `q` is the tail of the
synthetic-division list for `z`. -/
lemma synthAll_division_identity (p : List F) (z x : F) :
    evalPoly p x = (x - z) * evalPoly ((synthAll p z).tail) x + evalPoly p z := by
  induction p with
  | nil => simp [synthAll_nil, evalPoly_nil]
  | cons a t ih =>
    rw [synthAll_cons, List.tail_cons, evalPoly_cons, evalPoly_cons, ih,
      evalPoly_synthAll t z x]
    ring

/-! ## The long division `polyDivQR` at a linear divisor agrees with the
synthetic division -/

lemma foldr_synth_length (z : F) (xs init : List F) :
    (xs.foldr (synthDivStep z) init).length = xs.length + init.length := by
  induction xs with
  | nil => simp
  | cons a t ih =>
    rw [List.foldr_cons, synthDivStep, List.length_cons, ih, List.length_cons]
    omega

lemma foldr_synth_start (z : F) (xs : List F) (a : F) (t : List F) :
    xs.foldr (synthDivStep z) (a :: t) = xs.foldr (synthDivStep z) [a] ++ t := by
  induction xs with
  | nil => rfl
  | cons x xs ih =>
    rw [List.foldr_cons, List.foldr_cons, ih]
    have hne : xs.foldr (synthDivStep z) [a] ≠ [] := by
      intro hc
      have := foldr_synth_length z xs [a]
      rw [hc] at this
      simp at this
    obtain ⟨y, L, hy⟩ := List.exists_cons_of_ne_nil hne
    rw [hy]
    simp [synthDivStep]

lemma exists_append_two (l : List F) (h : 2 ≤ l.length) :
    ∃ xs b c, l = xs ++ [b, c] := by
  match hr : l.reverse with
  | [] =>
    rw [← l.reverse_reverse, hr] at h
    simp at h
  | [x] =>
    rw [← l.reverse_reverse, hr] at h
    simp at h
  | c :: b :: rest =>
    refine ⟨rest.reverse, b, c, ?_⟩
    rw [← l.reverse_reverse, hr]
    simp

lemma set_at_length (l : List F) (x v : F) : (l ++ [x]).set l.length v = l ++ [v] := by
  induction l with
  | nil => rfl
  | cons a t ih => simp [List.set, ih]

lemma tail_append_of_ne_nil (L t : List F) (h : L ≠ []) :
    (L ++ t).tail = L.tail ++ t := by
  cases L with
  | nil => exact absurd rfl h
  | cons a l => simp

lemma zipWith_sub_replicate_zero (xs : List F) :
    List.zipWith (fun x y => x - y) xs (List.replicate xs.length 0) = xs := by
  induction xs with
  | nil => rfl
  | cons a t ih => simp [List.replicate_succ, ih]

/-- At a linear monic divisor `x - z`, each long-division round agrees with
the synthetic division, for any sufficient fuel. -/
lemma polyDivAux_linear (z : F) (fuel : Nat) (f : List F) (hf : f.length ≤ fuel) :
    (polyDivAux fuel f [-z, 1]).1 = (synthAll f z).tail := by
  induction fuel generalizing f with
  | zero =>
    have hnil : f = [] := List.length_eq_zero.mp (by omega)
    subst hnil
    rfl
  | succ fuel ih =>
  rcases Nat.lt_or_ge f.length 2 with h2 | h2
  · -- short polynomials: quotient is empty
    rw [polyDivAux, if_pos (Or.inl (by simp; omega : f.length < ([-z, 1] : List F).length))]
    cases f with
    | nil => rfl
    | cons a t =>
      cases t with
      | nil => rfl
      | cons b t' =>
        exfalso
        simp at h2
        omega
  · obtain ⟨xs, b, c, rfl⟩ := exists_append_two f h2
    have hxs : xs.length + 2 ≤ fuel + 1 := by
      simp at hf
      omega
    rw [polyDivAux]
    rw [if_neg (by simp)]
    simp only []
    have hlast : (xs ++ [b, c]).getLastD 0 = c := by
      have : xs ++ [b, c] = (xs ++ [b]) ++ [c] := by simp
      rw [this, List.getLastD_concat]
    have hglast : ([-z, 1] : List F).getLastD 0 = 1 := rfl
    have hk : (xs ++ [b, c]).length - ([-z, 1] : List F).length = xs.length := by
      simp
    rw [hlast, hglast, hk]
    set lead := c * (1 : F)⁻¹ with hlead
    have hshift :
        List.zipWith (fun x y => x - y) (xs ++ [b, c])
            (List.replicate xs.length 0 ++ [-z, 1].map (fun d => lead * d)) =
          xs ++ [b - lead * -z, c - lead * 1] := by
      rw [List.zipWith_append _ _ _ _ _ (by simp), zipWith_sub_replicate_zero]
      rfl
    rw [hshift]
    have hdrop : (xs ++ [b - lead * -z, c - lead * 1]).dropLast =
        xs ++ [b - lead * -z] := by
      have : xs ++ [b - lead * -z, c - lead * 1] =
          (xs ++ [b - lead * -z]) ++ [c - lead * 1] := by simp
      rw [this, List.dropLast_concat]
    rw [hdrop]
    have hrec := ih (xs ++ [b - lead * -z]) (by simp; omega)
    rw [hrec]
    -- lengths
    have hqlen : ((synthAll (xs ++ [b - lead * -z]) z).tail).length = xs.length := by
      rw [List.length_tail, synthAll_length]
      simp
    rw [hqlen]
    have hrepl : xs.length + 1 - xs.length = 1 := by omega
    rw [hrepl]
    have hset := set_at_length ((synthAll (xs ++ [b - lead * -z]) z).tail) 0 lead
    rw [hqlen] at hset
    rw [List.replicate_one, hset]
    -- right-hand side
    have hsyn : synthAll (xs ++ [b, c]) z =
        xs.foldr (synthDivStep z) [b + (c + 0 * z) * z] ++ [c + 0 * z] := by
      rw [synthAll, List.foldr_append]
      have : List.foldr (synthDivStep z) [] [b, c] =
          [b + (c + 0 * z) * z, c + 0 * z] := by
        simp [synthDivStep]
      rw [this, foldr_synth_start]
    rw [hsyn]
    have hLne : xs.foldr (synthDivStep z) [b + (c + 0 * z) * z] ≠ [] := by
      intro hc
      have := foldr_synth_length z xs [b + (c + 0 * z) * z]
      rw [hc] at this
      simp at this
    rw [tail_append_of_ne_nil _ _ hLne]
    have hsyn2 : synthAll (xs ++ [b - lead * -z]) z =
        xs.foldr (synthDivStep z) [b - lead * -z + 0 * z] := by
      rw [synthAll, List.foldr_append]
      simp [synthDivStep]
    rw [hsyn2]
    have helt : b - lead * -z + 0 * z = b + (c + 0 * z) * z := by
      rw [hlead]
      ring
    have helt2 : lead = c + 0 * z := by
      rw [hlead]
      ring
    rw [helt, helt2]

/-- At a linear monic divisor `x - z`, the long-division quotient is exactly
the tail of the synthetic-division list. -/
lemma polyDivQR_linear (z : F) (f : List F) :
    (polyDivQR f [-z, 1]).1 = (synthAll f z).tail :=
  polyDivAux_linear z f.length f le_rfl

/-- A canonical coefficient list (the `DensePolynomial` invariant: empty, or
nonzero last coefficient) is untouched by the trailing-zero truncation. -/
lemma truncTrailingZeros_of_canonical (p : List F) (h : p.getLastD 1 ≠ 0) :
    truncTrailingZeros p = p := by
  unfold truncTrailingZeros
  cases hr : p.reverse with
  | nil =>
    have : p = [] := by
      have := congrArg List.reverse hr
      simpa using this
    subst this
    rfl
  | cons a l =>
    have hp : p = (a :: l).reverse := by
      have := congrArg List.reverse hr
      simpa using this
    have ha : a ≠ 0 := by
      intro hc
      apply h
      rw [hp, hc]
      simp [List.getLastD_concat]
    rw [List.dropWhile_cons, if_neg (by simp [ha]), ← hr]
    simp

/-- The vanishing polynomial of a single point is `[-β, 1]`, i.e. `x - β`. -/
lemma vanishing_singleton (β : F) :
    StreamingKzg.vanishing_polynomial [β] = [-β, 1] := by
  simp [StreamingKzg.vanishing_polynomial, mulPoly, sumL, List.range_succ]

/-! ## Erasure encoding (C3, C4) -/

/-- C3: the code at the failing input.  With a sub-domain of size 4 and a big
domain of size 2 (not a multiple of 4), `ArkEncFieldBench::erasure_encode`
passes its (vacuous) second assertion `sub.size % sub.size == 0` and returns a
silently truncated length-2 output instead of failing the assertion; the
sibling `PlonkKZG::erasure_encode`, which asserts `big.size % sub.size == 0`,
panics on the same input; and the first assertion (points length must equal
the sub-domain size) does fire. -/
theorem C3_erasure_encode_vacuous_assertion :
    (2 : Nat) % 4 ≠ 0 ∧
    (erasure_encode ([1, 2, 3, 4] : List Fq) (Domain.mk 4 22 75 73)
      (Domain.mk 2 96 96 49)).isSome = true ∧
    ((erasure_encode ([1, 2, 3, 4] : List Fq) (Domain.mk 4 22 75 73)
      (Domain.mk 2 96 96 49)).getD []).length = 2 ∧
    plonk_erasure_encode ([1, 2, 3, 4] : List Fq) (Domain.mk 4 22 75 73)
      (Domain.mk 2 96 96 49) = none ∧
    erasure_encode ([1, 2, 3] : List Fq) (Domain.mk 4 22 75 73)
      (Domain.mk 2 96 96 49) = none := by
  refine ⟨by decide, by decide, by decide, by decide, by decide⟩

/-- A geometric sum of a nontrivial root of unity vanishes. -/
lemma geom_sum_root_zero (x : F) (n : Nat) (hx : x ≠ 1) (hxn : x ^ n = 1) :
    ∑ j in Finset.range n, x ^ j = 0 := by
  have h := geom_sum_mul x n
  rw [hxn, sub_self] at h
  rcases mul_eq_zero.mp h with h1 | h1
  · exact h1
  · exact absurd (sub_eq_zero.mp h1) hx

/-- Orthogonality of the DFT characters: for a primitive `n`-th root of unity
`ω` with inverse `ωinv` and `ninv = n⁻¹`,
`ninv * Σ_j ω^(k·j)·ωinv^(i·j)` is the Kronecker delta of `i` and `k`. -/
lemma dft_orthogonality (ω ωinv ninv : F) (n : Nat)
    (hωn : ω ^ n = 1) (hinv : ωinv * ω = 1) (hninv : ninv * (n : F) = 1)
    (hprim : ∀ d, d < n → 0 < d → ω ^ d ≠ 1)
    (i k : Nat) (hi : i < n) (hk : k < n) :
    ninv * ∑ j in Finset.range n, ω ^ (k * j) * ωinv ^ (i * j) =
      if i = k then 1 else 0 := by
  have hx : ∀ j, ω ^ (k * j) * ωinv ^ (i * j) = (ω ^ k * ωinv ^ i) ^ j := by
    intro j
    rw [pow_mul, pow_mul, ← mul_pow]
  have hsum : ∑ j in Finset.range n, ω ^ (k * j) * ωinv ^ (i * j) =
      ∑ j in Finset.range n, (ω ^ k * ωinv ^ i) ^ j :=
    Finset.sum_congr rfl (fun j _ => hx j)
  rw [hsum]
  have hωωinv : ∀ d : Nat, ω ^ d * ωinv ^ d = 1 := by
    intro d
    rw [← mul_pow, mul_comm ω ωinv, hinv, one_pow]
  by_cases hik : i = k
  · subst hik
    have hone : ω ^ i * ωinv ^ i = 1 := hωωinv i
    rw [if_pos rfl, hone]
    simp only [one_pow, Finset.sum_const, Finset.card_range, nsmul_eq_mul,
      mul_one]
    exact hninv
  · rw [if_neg hik]
    have hxne : ω ^ k * ωinv ^ i ≠ 1 := by
      rcases Nat.lt_or_ge i k with hlt | hge
      · have hsplit : ω ^ k = ω ^ (k - i) * ω ^ i := by
          rw [← pow_add]
          congr 1
          omega
        have : ω ^ k * ωinv ^ i = ω ^ (k - i) := by
          rw [hsplit, mul_assoc, hωωinv i, mul_one]
        rw [this]
        exact hprim (k - i) (by omega) (by omega)
      · have hlt : k < i := by omega
        have hsplit : ωinv ^ i = ωinv ^ k * ωinv ^ (i - k) := by
          rw [← pow_add]
          congr 1
          omega
        have hval : ω ^ k * ωinv ^ i = ωinv ^ (i - k) := by
          rw [hsplit, ← mul_assoc, hωωinv k, one_mul]
        rw [hval]
        intro hc
        apply hprim (i - k) (by omega) (by omega)
        have := congrArg (fun t => ω ^ (i - k) * t) hc
        simp only [mul_one] at this
        rw [← this, hωωinv (i - k)]
    have hxn : (ω ^ k * ωinv ^ i) ^ n = 1 := by
      have hωinvn : ωinv ^ n = 1 := by
        have := congrArg (fun t => t ^ n) hinv
        simp only [mul_pow, one_pow] at this
        rw [hωn, mul_one] at this
        exact this
      rw [mul_pow, ← pow_mul, ← pow_mul, mul_comm k n, mul_comm i n, pow_mul,
        pow_mul, hωn, hωinvn, one_pow, one_pow, mul_one]
    rw [geom_sum_root_zero _ n hxne hxn, mul_zero]

/-- DFT inversion at a point: evaluating the inverse-DFT coefficients back on
the forward characters returns the original sample. -/
lemma idft_dft_point (ω ωinv ninv : F) (n : Nat)
    (hωn : ω ^ n = 1) (hinv : ωinv * ω = 1) (hninv : ninv * (n : F) = 1)
    (hprim : ∀ d, d < n → 0 < d → ω ^ d ≠ 1)
    (v : Nat → F) (i : Nat) (hi : i < n) :
    ∑ j in Finset.range n,
        (ninv * ∑ l in Finset.range n, v l * ωinv ^ (l * j)) * ω ^ (i * j) =
      v i := by
  have hswap : ∑ j in Finset.range n,
      (ninv * ∑ l in Finset.range n, v l * ωinv ^ (l * j)) * ω ^ (i * j) =
      ∑ l in Finset.range n,
        v l * (ninv * ∑ j in Finset.range n, ω ^ (i * j) * ωinv ^ (l * j)) := by
    calc ∑ j in Finset.range n,
        (ninv * ∑ l in Finset.range n, v l * ωinv ^ (l * j)) * ω ^ (i * j) =
        ∑ j in Finset.range n, ∑ l in Finset.range n,
          v l * (ninv * (ω ^ (i * j) * ωinv ^ (l * j))) := by
          apply Finset.sum_congr rfl
          intro j _
          rw [Finset.mul_sum, Finset.sum_mul]
          apply Finset.sum_congr rfl
          intro l _
          ring
    _ = ∑ l in Finset.range n, ∑ j in Finset.range n,
          v l * (ninv * (ω ^ (i * j) * ωinv ^ (l * j))) := Finset.sum_comm
    _ = ∑ l in Finset.range n,
          v l * (ninv * ∑ j in Finset.range n, ω ^ (i * j) * ωinv ^ (l * j)) := by
          apply Finset.sum_congr rfl
          intro l _
          rw [Finset.mul_sum, Finset.mul_sum]
  rw [hswap]
  have hdelta : ∀ l ∈ Finset.range n,
      v l * (ninv * ∑ j in Finset.range n, ω ^ (i * j) * ωinv ^ (l * j)) =
        v l * (if l = i then 1 else 0) := by
    intro l hl
    rw [dft_orthogonality ω ωinv ninv n hωn hinv hninv hprim l i
      (Finset.mem_range.mp hl) hi]
  rw [Finset.sum_congr rfl hdelta]
  simp [Finset.sum_ite_eq' (Finset.range n), Finset.mem_range.mpr hi]

lemma fft_in_place_getD (d : Domain F) (xs : List F) (r : Nat) (hr : r < d.size) :
    (fft_in_place d xs).getD r 0 =
      ∑ j in Finset.range d.size, (resizeL xs d.size).getD j 0 * d.group_gen ^ (r * j) := by
  rw [fft_in_place, getD_map_range _ _ hr, sumL_eq]

lemma ifft_in_place_getD (d : Domain F) (xs : List F) (r : Nat) (hr : r < d.size) :
    (ifft_in_place d xs).getD r 0 =
      d.size_inv * ∑ i in Finset.range d.size,
        (resizeL xs d.size).getD i 0 * d.group_gen_inv ^ (i * r) := by
  rw [ifft_in_place, getD_map_range _ _ hr, sumL_eq]

lemma fft_in_place_length (d : Domain F) (xs : List F) :
    (fft_in_place d xs).length = d.size := by
  simp [fft_in_place]

lemma ifft_in_place_length (d : Domain F) (xs : List F) :
    (ifft_in_place d xs).length = d.size := by
  simp [ifft_in_place]

/-- C4: erasure-encoding stride round trip — for evaluations on a sub-domain
of size `n` and a big domain of size `m = k·n` whose generator refines the
sub-domain's (`Ω^(m/n) = ω`, `ω` a primitive `n`-th root of unity),
`erasure_encode` succeeds, produces `m` outputs, and output `i·(m/n)` equals
input `i` for every `i < n`. -/
theorem C4_erasure_encode_stride_round_trip (sub big : Domain F)
    (pts : List F) (k : Nat)
    (hpts : pts.length = sub.size) (hn : 0 < sub.size) (hk : 0 < k)
    (hm : big.size = k * sub.size)
    (hgen : big.group_gen ^ (big.size / sub.size) = sub.group_gen)
    (hωn : sub.group_gen ^ sub.size = 1)
    (hinv : sub.group_gen_inv * sub.group_gen = 1)
    (hninv : sub.size_inv * (sub.size : F) = 1)
    (hprim : ∀ d, d < sub.size → 0 < d → sub.group_gen ^ d ≠ 1) :
    ∃ out, erasure_encode pts sub big = some out ∧ out.length = big.size ∧
      ∀ i < sub.size,
        out.getD (i * (big.size / sub.size)) 0 = pts.getD i 0 := by
  set n := sub.size with hnn
  set m := big.size with hmm
  have hs : m / n = k := by
    rw [hm]
    exact Nat.mul_div_cancel k hn
  refine ⟨fft_in_place big (resizeL (ifft_in_place sub pts) m), ?_, ?_, ?_⟩
  · rw [erasure_encode, if_neg (by omega), if_neg (by simp [Nat.mod_self])]
  · exact fft_in_place_length big _
  · intro i hi
    have hnm : n ≤ m := by
      rw [hm]
      calc n = 1 * n := (one_mul n).symm
      _ ≤ k * n := Nat.mul_le_mul_right n hk
    have hidx : i * (m / n) < m := by
      rw [hs, hm]
      calc i * k < (i + 1) * k := by
            exact mul_lt_mul_of_pos_right (by omega) hk
      _ ≤ n * k := Nat.mul_le_mul_right k (by omega)
      _ = k * n := Nat.mul_comm n k
    rw [fft_in_place_getD big _ _ hidx]
    -- kill the padding beyond the first n coefficients
    have hlen : (ifft_in_place sub pts).length = n := ifft_in_place_length sub pts
    have hsubset : Finset.range n ⊆ Finset.range m := Finset.range_subset.mpr hnm
    have hvanish : ∀ j ∈ Finset.range m, j ∉ Finset.range n →
        (resizeL (resizeL (ifft_in_place sub pts) m) big.size).getD j 0 *
          big.group_gen ^ (i * (m / n) * j) = 0 := by
      intro j hj hjn
      have hjge : n ≤ j := by
        by_contra hc
        exact hjn (Finset.mem_range.mpr (by omega))
      have hjm : j < m := Finset.mem_range.mp hj
      rw [resizeL_getD, if_pos hjm, resizeL_getD, if_pos hjm,
        List.getD_eq_getElem?_getD,
        List.getElem?_eq_none_iff.mpr (by omega), Option.getD_none, zero_mul]
    rw [← Finset.sum_subset hsubset hvanish]
    have hterm : ∀ j ∈ Finset.range n,
        (resizeL (resizeL (ifft_in_place sub pts) m) big.size).getD j 0 *
          big.group_gen ^ (i * (m / n) * j) =
        (sub.size_inv * ∑ l in Finset.range n,
            pts.getD l 0 * sub.group_gen_inv ^ (l * j)) *
          sub.group_gen ^ (i * j) := by
      intro j hj
      have hjn : j < n := Finset.mem_range.mp hj
      have hjm : j < m := by omega
      rw [resizeL_getD, if_pos hjm, resizeL_getD, if_pos hjm,
        ifft_in_place_getD sub pts j hjn]
      congr 1
      · congr 1
        apply Finset.sum_congr rfl
        intro l hl
        rw [resizeL_getD, if_pos (Finset.mem_range.mp hl)]
      · rw [← hgen, ← pow_mul]
        congr 1
        ring
    rw [Finset.sum_congr rfl hterm]
    exact idft_dft_point sub.group_gen sub.group_gen_inv sub.size_inv n hωn
      hinv hninv hprim (fun l => pts.getD l 0) i hi

/-- Witness for C4 at `n = 4`, `m = 8`, input `[5, 6, 7, 8]` over `ZMod 97`
(`ω = 22` with `ω⁻¹ = 75`, `4⁻¹ = 73`; `Ω = 33` with `33² = 22`). -/
theorem C4_erasure_encode_stride_round_trip_witness :
    ∃ out, erasure_encode ([5, 6, 7, 8] : List Fq) (Domain.mk 4 22 75 73)
        (Domain.mk 8 33 50 85) = some out ∧ out.length = 8 ∧
      ∀ i < 4, out.getD (i * 2) 0 = ([5, 6, 7, 8] : List Fq).getD i 0 := by
  have h := C4_erasure_encode_stride_round_trip (F := Fq) (Domain.mk 4 22 75 73)
    (Domain.mk 8 33 50 85) [5, 6, 7, 8] 2 (by decide) (by decide) (by decide)
    (by decide) (by decide) (by decide) (by decide) (by decide) (by decide)
  exact h

/-! ## Multi-point opening preconditions (C5) and empty-input errors (C6) -/

lemma vanishing_polynomial_ne_nil (pts : List F) :
    StreamingKzg.vanishing_polynomial pts ≠ [] := by
  suffices h : ∀ (acc : List F), acc ≠ [] →
      pts.foldl (fun acc p => mulPoly acc [-p, 1]) acc ≠ [] from
    h [1] (by simp)
  induction pts with
  | nil => exact fun acc h => h
  | cons p ps ih =>
    intro acc hacc
    rw [List.foldl_cons]
    apply ih
    rw [mulPoly, if_neg (by simp [hacc])]
    simp

/-- C5 (amended): the streaming `batch_open_multi_points` is rejected by its
assertion exactly when the number of evaluation points reaches
`powers_of_g2.len()`, i.e. exceeds `max_eval_points`; a call with
`points.len() == max_eval_points` is accepted. -/
theorem C5_batch_open_points_bound (ck : StreamingKzg.CommitterKey F)
    (polys : List (List F)) (pts : List F) (chal : F)
    (h2 : 0 < ck.powers_of_g2.length) :
    ck.batch_open_multi_points polys pts chal = none ↔
      ck.max_eval_points < pts.length := by
  rw [StreamingKzg.CommitterKey.batch_open_multi_points,
    StreamingKzg.CommitterKey.max_eval_points]
  by_cases hlt : pts.length < ck.powers_of_g2.length
  · rw [if_pos hlt]
    constructor
    · intro hc
      exact absurd hc (by simp)
    · intro hc
      exact absurd hc (by omega)
  · rw [if_neg hlt]
    constructor
    · intro _
      omega
    · intro _
      rfl

/-- Witness for C5's amended bound: a key with `max_eval_points = 2` rejects
four points. -/
theorem C5_batch_open_points_bound_witness :
    0 < (StreamingKzg.CommitterKey.new 2 2 5 1 1 :
        StreamingKzg.CommitterKey Fq).powers_of_g2.length ∧
    (StreamingKzg.CommitterKey.new 2 2 5 1 1 :
        StreamingKzg.CommitterKey Fq).batch_open_multi_points
      [[1]] [1, 2, 3, 4] 1 = none :=
  ⟨by decide,
    (C5_batch_open_points_bound _ [[1]] [1, 2, 3, 4] 1 (by decide)).mpr
      (by decide)⟩

/-- Counterexample to C5 as stated: (a) a streaming key configured with
`max_eval_points = 2` accepts a `batch_open_multi_points` call with exactly
2 points — not strictly fewer — and computes a proof; (b) a method-2 setup
configured with `max_pts = 2` accepts an `open` call with 3 points (no check
at all) and returns a proof. -/
theorem C5_points_bound_counterexample :
    ((StreamingKzg.CommitterKey.new 2 2 5 1 1 :
        StreamingKzg.CommitterKey Fq).max_eval_points = 2 ∧
      ((StreamingKzg.CommitterKey.new 2 2 5 1 1 :
        StreamingKzg.CommitterKey Fq).batch_open_multi_points
          [[1, 2, 3]] [2, 3] 1).isSome = true) ∧
    ((Method2.Setup.new 4 2 5 1 1 : Method2.Setup Fq).openM
        [[2]] [1, 2, 3] 1 1).isOk = true := by
  refine ⟨⟨by decide, by decide⟩, by decide⟩

/-- C6: method-2 `open` returns `NoPolynomialsGiven` exactly on an empty
polynomial slice, and method-2 `verify` returns `NoPolynomialsGiven` exactly
on an empty evaluations slice; with non-empty input neither returns that
error. -/
theorem C6_no_polynomials_given (s : Method2.Setup F) (polys : List (List F))
    (points : List F) (gamma chal_z : F) (commits : List F)
    (evals : List (List F)) (proof : F × F) :
    (s.openM polys points gamma chal_z =
        .error Method2.MpError.NoPolynomialsGiven ↔ polys = []) ∧
    (s.verify commits points evals proof gamma chal_z =
        .error Method2.MpError.NoPolynomialsGiven ↔ evals = []) := by
  constructor
  · cases polys with
    | nil =>
      simp [Method2.Setup.openM, Method2.linear_combination,
        StreamingKzg.linear_combination, bind, Except.bind]
    | cons p ps =>
      have hne : Method2.vanishing_polynomial points ≠ [] :=
        vanishing_polynomial_ne_nil points
      simp only [Method2.Setup.openM, Method2.linear_combination,
        StreamingKzg.linear_combination, Method2.poly_div_q_r, if_neg hne,
        Method2.curve_msm, bind, Except.bind, pure, Except.pure,
        List.cons_ne_nil, iff_false]
      split_ifs <;> simp
  · cases evals with
    | nil =>
      simp [Method2.Setup.verify, Method2.linear_combination,
        StreamingKzg.linear_combination, Method2.lagrange_interp, bind,
        Except.bind]
    | cons e es =>
      simp only [Method2.Setup.verify, Method2.linear_combination,
        StreamingKzg.linear_combination, Method2.lagrange_interp,
        List.map_cons, Method2.curve_msm, bind, Except.bind, pure,
        Except.pure, List.cons_ne_nil, iff_false]
      split_ifs <;> simp

/-! ## Batch check (C2) -/

lemma check_ok_true_iff (vk : VerifierKey F) (c z v w : F) :
    KZG10.check vk c z v w = .ok true ↔
      (c - vk.g * v) * vk.h = w * (vk.beta_h - vk.h * z) := by
  simp [KZG10.check, pairing]

/-- If every zipped tuple passes the individual pairing check, then the
accumulated totals of the batch loop satisfy
`(total_c - g * g_multiplier) * h = total_w * beta_h`, for every starting
randomizer and every randomizer stream. -/
lemma batchLoop_balance (vk : VerifierKey F) (tuples : List (F × F × F × F))
    (hall : ∀ t ∈ tuples, KZG10.check vk t.1 t.2.1 t.2.2.1 t.2.2.2 = .ok true) :
    ∀ (r : F) (rands : List F),
      ((KZG10.batchLoop tuples r rands).1 -
          vk.g * (KZG10.batchLoop tuples r rands).2.2) * vk.h =
        (KZG10.batchLoop tuples r rands).2.1 * vk.beta_h := by
  induction tuples with
  | nil =>
    intro r rands
    simp [KZG10.batchLoop]
  | cons t rest ih =>
    intro r rands
    obtain ⟨c, z, v, w⟩ := t
    have hhead := (check_ok_true_iff vk c z v w).mp (hall _ (List.mem_cons_self _ _))
    have htail := ih (fun t ht => hall t (List.mem_cons_of_mem _ ht))
      (rands.headD 0) rands.tail
    rw [KZG10.batchLoop]
    simp only []
    linear_combination htail + r * hhead

/-- C2 (amended): the first tuple's batching randomizer is the constant one
and each subsequent tuple uses a freshly drawn 128-bit scalar; the loop
accumulates `Σ rᵢ·(wᵢ·zᵢ + cᵢ)` and `Σ rᵢ·wᵢ`, subtracts `(Σ rᵢvᵢ)·g`, and
accepts iff the product of the two pairings is the identity.  On inputs where
every individual `check` returns true, `batch_check` returns true — for every
randomizer stream. -/
theorem C2_batch_check_completeness (vk : VerifierKey F)
    (commitments points values proofs rands : List F)
    (hall : ∀ t ∈ commitments.zip (points.zip (values.zip proofs)),
      KZG10.check vk t.1 t.2.1 t.2.2.1 t.2.2.2 = .ok true) :
    KZG10.batch_check vk commitments points values proofs rands = .ok true := by
  rw [KZG10.batch_check]
  simp only [pairing, Except.ok.injEq, decide_eq_true_eq]
  have hb := batchLoop_balance vk _ hall 1 rands
  linear_combination hb

/-- Counterexample to C2 as stated: on a single bad tuple with randomizer
stream `[0]`, the code's `batch_check` (first randomizer = 1) rejects, while
the spec's description (a fresh randomizer drawn for every tuple, here the
drawn scalar 0) would accept; so `batch_check` does not draw a fresh
randomizer for the first tuple. -/
theorem C2_batch_check_first_randomizer_counterexample :
    KZG10.check (VerifierKey.mk 1 0 1 5 : VerifierKey Fq) 1 0 0 0 = .ok false ∧
    KZG10.batch_check (VerifierKey.mk 1 0 1 5 : VerifierKey Fq)
      [1] [0] [0] [0] [0] = .ok false ∧
    KZG10.batch_check_fresh_spec (VerifierKey.mk 1 0 1 5 : VerifierKey Fq)
      [1] [0] [0] [0] [0] = .ok true := by
  refine ⟨by decide, by decide, by decide⟩

/-- Witness for C2 with two honestly generated tuples over `ZMod 97`
(`τ = 5`: commitments `p(5)`, proofs `q(5)`, values `p(z)`) and the randomizer
stream `[9, 11]`. -/
theorem C2_batch_check_completeness_witness :
    (∀ t ∈ ([13, 6] : List Fq).zip (([7, 2] : List Fq).zip
        (([17, 3] : List Fq).zip ([2, 1] : List Fq))),
      KZG10.check (VerifierKey.mk 1 0 1 5) t.1 t.2.1 t.2.2.1 t.2.2.2 = .ok true) ∧
    KZG10.batch_check (VerifierKey.mk 1 0 1 5 : VerifierKey Fq)
      [13, 6] [7, 2] [17, 3] [2, 1] [9, 11] = .ok true := by
  have hall : ∀ t ∈ ([13, 6] : List Fq).zip (([7, 2] : List Fq).zip
      (([17, 3] : List Fq).zip ([2, 1] : List Fq))),
      KZG10.check (VerifierKey.mk 1 0 1 5) t.1 t.2.1 t.2.2.1 t.2.2.2 = .ok true := by
    intro t ht
    fin_cases ht <;> decide
  exact ⟨hall, C2_batch_check_completeness _ _ _ _ _ _ hall⟩

/-! ## MSM linearity and trailing zeros (C7) -/

lemma msmF_replicate_zero (bases : List F) (k : Nat) :
    msmF bases (List.replicate k 0) = 0 := by
  induction k generalizing bases with
  | zero => simp [msmF]
  | succ k ih =>
    cases bases with
    | nil => simp [msmF]
    | cons b bs =>
      rw [List.replicate_succ, msmF_cons, ih bs]
      ring

lemma msmF_append_replicate_zero (bases l : List F) (k : Nat) :
    msmF bases (l ++ List.replicate k 0) = msmF bases l := by
  induction l generalizing bases with
  | nil => simpa using msmF_replicate_zero bases k
  | cons a t ih =>
    cases bases with
    | nil => simp [msmF_nil_left]
    | cons b bs => rw [List.cons_append, msmF_cons, msmF_cons, ih bs]

/-- Every list is its trailing-zero truncation followed by zeros. -/
lemma exists_truncTrailingZeros (l : List F) :
    ∃ k, l = truncTrailingZeros l ++ List.replicate k 0 := by
  refine ⟨(l.reverse.takeWhile (fun c => decide (c = 0))).length, ?_⟩
  have hsplit := List.takeWhile_append_dropWhile
    (p := fun c : F => decide (c = 0)) (l := l.reverse)
  have hrep : l.reverse.takeWhile (fun c => decide (c = 0)) =
      List.replicate (l.reverse.takeWhile (fun c => decide (c = 0))).length 0 := by
    apply List.eq_replicate_of_mem
    intro a ha
    have := List.mem_takeWhile_imp ha
    simpa using this
  calc l = l.reverse.reverse := by rw [List.reverse_reverse]
  _ = (l.reverse.takeWhile (fun c => decide (c = 0)) ++
        l.reverse.dropWhile (fun c => decide (c = 0))).reverse := by rw [hsplit]
  _ = truncTrailingZeros l ++ List.replicate
        (l.reverse.takeWhile (fun c => decide (c = 0))).length 0 := by
      rw [List.reverse_append, truncTrailingZeros]
      congr 1
      rw [hrep]
      simp

lemma msmF_truncTrailingZeros (bases l : List F) :
    msmF bases (truncTrailingZeros l) = msmF bases l := by
  obtain ⟨k, hk⟩ := exists_truncTrailingZeros l
  conv_rhs => rw [hk]
  rw [msmF_append_replicate_zero]

lemma truncTrailingZeros_length_le (l : List F) :
    (truncTrailingZeros l).length ≤ l.length := by
  obtain ⟨k, hk⟩ := exists_truncTrailingZeros l
  conv_rhs => rw [hk]
  simp

lemma addPolyRaw_length (a b : List F) :
    (addPolyRaw a b).length = max a.length b.length := by
  induction a generalizing b with
  | nil => simp [addPolyRaw]
  | cons x xs ih =>
    cases b with
    | nil => simp [addPolyRaw]
    | cons y ys =>
      rw [addPolyRaw, List.length_cons, List.length_cons, List.length_cons, ih]
      omega

lemma msmF_addPolyRaw (bases a b : List F) :
    msmF bases (addPolyRaw a b) = msmF bases a + msmF bases b := by
  induction a generalizing b bases with
  | nil => simp [addPolyRaw, msmF]
  | cons x xs ih =>
    cases b with
    | nil => simp [addPolyRaw, msmF]
    | cons y ys =>
      cases bases with
      | nil => simp [addPolyRaw, msmF_nil_left]
      | cons c cs =>
        rw [addPolyRaw, msmF_cons, msmF_cons, msmF_cons, ih cs ys]
        ring

lemma msmF_scalePoly (bases q : List F) (f : F) :
    msmF bases (scalePoly f q) = f * msmF bases q := by
  induction q generalizing bases with
  | nil => simp [scalePoly, msmF]
  | cons x xs ih =>
    cases bases with
    | nil => simp [msmF_nil_left]
    | cons c cs =>
      rw [scalePoly, List.map_cons, msmF_cons, msmF_cons, ← scalePoly, ih cs]
      ring

/-- Lemma: `commit` succeeds within capacity and returns the full dot product of the
coefficients against the powers. -/
lemma commit_value (powers : Powers F) (p : List F) (hn : 0 < powers.size)
    (hp : p.length ≤ powers.size) :
    KZG10.commit powers p = .ok (msmF powers.powers_of_g p) := by
  unfold KZG10.commit KZG10.check_degree_is_too_large
  rw [if_neg (by simp [KZG10.degreeL]; omega)]
  show Except.ok (msmF (powers.powers_of_g.drop (KZG10.numLeadingZeros p))
    (p.drop (KZG10.numLeadingZeros p))) = _
  rw [msmF_drop_leading]

/-- C7: commitment is additively homomorphic — for polynomials `p`, `q` within
the key's capacity and a scalar `f`, committing to `p + f*q` (the `AddAssign`
of `DensePolynomial`) yields exactly the `Commitment::add_assign` combination
`commit(p) + f * commit(q)` of the separate commitments. -/
theorem C7_commit_additively_homomorphic (powers : Powers F) (p q : List F)
    (f : F) (hn : 0 < powers.size) (hp : p.length ≤ powers.size)
    (hq : q.length ≤ powers.size) :
    ∃ cp cq, KZG10.commit powers p = .ok cp ∧ KZG10.commit powers q = .ok cq ∧
      KZG10.commit powers (addPoly p (scalePoly f q)) =
        .ok (Commitment.add_assign cp f cq) := by
  refine ⟨msmF powers.powers_of_g p, msmF powers.powers_of_g q,
    commit_value powers p hn hp, commit_value powers q hn hq, ?_⟩
  have hlen : (addPoly p (scalePoly f q)).length ≤ powers.size := by
    have h1 := truncTrailingZeros_length_le (addPolyRaw p (scalePoly f q))
    have h2 := addPolyRaw_length p (scalePoly f q)
    have h3 : (scalePoly f q).length = q.length := by simp [scalePoly]
    rw [addPoly]
    omega
  rw [commit_value powers _ hn hlen, addPoly, msmF_truncTrailingZeros,
    msmF_addPolyRaw, msmF_scalePoly, Commitment.add_assign]
  rw [add_comm]

/-- Witness for C7 with `p = 3x² + 2x + 1`, `q = 5x + 4`, `f = 7` against a
concrete three-power key over `ZMod 97`. -/
theorem C7_commit_additively_homomorphic_witness :
    (0 < (Powers.mk [1, 5, 25] [1, 5, 25] : Powers Fq).size ∧
      ([1, 2, 3] : List Fq).length ≤ (Powers.mk [1, 5, 25] [1, 5, 25] : Powers Fq).size ∧
      ([4, 5] : List Fq).length ≤ (Powers.mk [1, 5, 25] [1, 5, 25] : Powers Fq).size) ∧
    ∃ cp cq, KZG10.commit (Powers.mk [1, 5, 25] [1, 5, 25] : Powers Fq) [1, 2, 3] = .ok cp ∧
      KZG10.commit (Powers.mk [1, 5, 25] [1, 5, 25]) [4, 5] = .ok cq ∧
      KZG10.commit (Powers.mk [1, 5, 25] [1, 5, 25])
        (addPoly [1, 2, 3] (scalePoly 7 [4, 5])) =
        .ok (Commitment.add_assign cp 7 cq) :=
  ⟨⟨by decide, by decide, by decide⟩,
    C7_commit_additively_homomorphic _ _ _ 7 (by decide) (by decide) (by decide)⟩

/-! ## Grid commitment extension (C8) -/

lemma msmF_eq_sum_getD (bases scalars : List F) (h : scalars.length ≤ bases.length) :
    msmF bases scalars =
      ∑ j in Finset.range scalars.length, scalars.getD j 0 * bases.getD j 0 := by
  induction scalars generalizing bases with
  | nil => simp [msmF]
  | cons a t ih =>
    cases bases with
    | nil => simp at h
    | cons b bs =>
      rw [msmF_cons, List.length_cons, Finset.sum_range_succ']
      simp only [List.getD_cons_zero, List.getD_cons_succ]
      rw [ih bs (by simpa using h)]
      ring

lemma mapM_toOption_map_ok {ε α : Type} (l : List α) :
    (l.map (Except.ok : α → Except ε α)).mapM Except.toOption = some l := by
  induction l with
  | nil => rfl
  | cons a t ih =>
    rw [List.map_cons, List.mapM_cons, ih]
    rfl

/-- The `ifft`-then-`fft` domain-extension pipeline, entrywise: entry `r` of
extending a length-`n` vector from the size-`n` domain to the size-`2n`
domain. -/
lemma ext_pipeline_getD (dn d2n : Domain F) (v : List F) (n : Nat)
    (hdn : dn.size = n) (hd2n : d2n.size = 2 * n) (hv : v.length = n)
    (r : Nat) (hr : r < 2 * n) :
    (fft_in_place d2n (ifft_in_place dn v)).getD r 0 =
      ∑ t in Finset.range n,
        (dn.size_inv * ∑ l in Finset.range n,
            v.getD l 0 * dn.group_gen_inv ^ (l * t)) *
          d2n.group_gen ^ (r * t) := by
  rw [fft_in_place_getD d2n _ r (by omega), hd2n]
  have hsubset : Finset.range n ⊆ Finset.range (2 * n) :=
    Finset.range_subset.mpr (by omega)
  have hvanish : ∀ t ∈ Finset.range (2 * n), t ∉ Finset.range n →
      (resizeL (ifft_in_place dn v) (2 * n)).getD t 0 *
        d2n.group_gen ^ (r * t) = 0 := by
    intro t ht htn
    have h1 : t < 2 * n := Finset.mem_range.mp ht
    have h2 : n ≤ t := by
      by_contra hc
      exact htn (Finset.mem_range.mpr (by omega))
    have hlen : (ifft_in_place dn v).length = n := by
      rw [ifft_in_place_length, hdn]
    rw [resizeL_getD, if_pos h1, List.getD_eq_getElem?_getD,
      List.getElem?_eq_none_iff.mpr (by omega), Option.getD_none, zero_mul]
  rw [← Finset.sum_subset hsubset hvanish]
  apply Finset.sum_congr rfl
  intro t ht
  have htn : t < n := Finset.mem_range.mp ht
  rw [resizeL_getD, if_pos (by omega), ifft_in_place_getD dn v t (by omega),
    hdn]
  congr 2
  apply Finset.sum_congr rfl
  intro l hl
  rw [resizeL_getD, if_pos (Finset.mem_range.mp hl)]

/-- Rearranging a triple sum: extending (over the characters `C`, `D`) a
vector of dot products against `B` equals the dot product against `B` of the
extended vectors. -/
lemma triple_sum_swap (n : Nat) (A : Nat → Nat → F) (B : Nat → F)
    (C : Nat → F) (D : Nat → F) (ninv : F) :
    ∑ t in Finset.range n,
        (ninv * ∑ i in Finset.range n,
          (∑ u in Finset.range n, A i u * B u) * C (i * t)) * D t =
      ∑ u in Finset.range n,
        (∑ t in Finset.range n,
          (ninv * ∑ i in Finset.range n, A i u * C (i * t)) * D t) * B u := by
  have h1 : ∑ t in Finset.range n,
      (ninv * ∑ i in Finset.range n,
        (∑ u in Finset.range n, A i u * B u) * C (i * t)) * D t =
      ∑ t in Finset.range n, ∑ u in Finset.range n,
        (ninv * ∑ i in Finset.range n, A i u * C (i * t)) * D t * B u := by
    apply Finset.sum_congr rfl
    intro t _
    have hinner : ∑ i in Finset.range n,
        (∑ u in Finset.range n, A i u * B u) * C (i * t) =
        ∑ u in Finset.range n,
          (∑ i in Finset.range n, A i u * C (i * t)) * B u := by
      have ha : ∑ i in Finset.range n,
          (∑ u in Finset.range n, A i u * B u) * C (i * t) =
          ∑ i in Finset.range n, ∑ u in Finset.range n,
            A i u * B u * C (i * t) := by
        apply Finset.sum_congr rfl
        intro i _
        rw [Finset.sum_mul]
      have hb : (∑ i in Finset.range n, ∑ u in Finset.range n,
          A i u * B u * C (i * t)) =
          ∑ u in Finset.range n, ∑ i in Finset.range n,
            A i u * B u * C (i * t) := Finset.sum_comm
      have hc : (∑ u in Finset.range n, ∑ i in Finset.range n,
          A i u * B u * C (i * t)) =
          ∑ u in Finset.range n,
            (∑ i in Finset.range n, A i u * C (i * t)) * B u := by
        apply Finset.sum_congr rfl
        intro u _
        rw [Finset.sum_mul]
        apply Finset.sum_congr rfl
        intro i _
        ring
      exact ha.trans (hb.trans hc)
    rw [hinner, Finset.mul_sum, Finset.sum_mul]
    apply Finset.sum_congr rfl
    intro u _
    ring
  have h2 : (∑ t in Finset.range n, ∑ u in Finset.range n,
      (ninv * ∑ i in Finset.range n, A i u * C (i * t)) * D t * B u) =
      ∑ u in Finset.range n, ∑ t in Finset.range n,
        (ninv * ∑ i in Finset.range n, A i u * C (i * t)) * D t * B u :=
    Finset.sum_comm
  have h3 : (∑ u in Finset.range n, ∑ t in Finset.range n,
      (ninv * ∑ i in Finset.range n, A i u * C (i * t)) * D t * B u) =
      ∑ u in Finset.range n,
        (∑ t in Finset.range n,
          (ninv * ∑ i in Finset.range n, A i u * C (i * t)) * D t) * B u := by
    apply Finset.sum_congr rfl
    intro u _
    rw [Finset.sum_mul]
  exact h1.trans (h2.trans h3)

/-- C8: grid commitment-extension equivalence.  For a square grid of positive
size `n` with matching radix-2 domains of sizes `n` and `2n` (the double
domain's generator squaring to the primitive generator of the small one) and a
committer key of capacity at least `n`, `make_commits` on the extended grid
succeeds, and for every row index `r < 2n` the FFT-extended commitment at `r`
is exactly the KZG commitment of row `r` of the extended grid. -/
theorem C8_grid_commit_extension (s : Grid.Setup F) (g : List (List F))
    (n : Nat) (hng : g.length = n) (hn : 0 < n)
    (hsq : ∀ row ∈ g, row.length = n)
    (hdn : s.domain_n.size = n) (hd2n : s.domain_2n.size = 2 * n)
    (hpw : n ≤ s.powers.size)
    (hωn : s.domain_n.group_gen ^ n = 1)
    (hinv : s.domain_n.group_gen_inv * s.domain_n.group_gen = 1)
    (hninv : s.domain_n.size_inv * (n : F) = 1)
    (hprim : ∀ d, d < n → 0 < d → s.domain_n.group_gen ^ d ≠ 1)
    (hΩ2 : s.domain_2n.group_gen ^ 2 = s.domain_n.group_gen) :
    ∃ cs, Grid.make_commits s (Grid.extend_grid s g) = some cs ∧
      cs.length = 2 * n ∧
      ∀ r < 2 * n,
        KZG10.commit s.powers ((Grid.extend_grid s g).getD r []) =
          .ok (cs.getD r 0) := by
  subst hng
  set eg := Grid.extend_grid s g with heg
  have hegl : eg.length = 2 * g.length := by
    simp [heg, Grid.extend_grid]
  have hrow : ∀ r, r < 2 * g.length → eg.getD r [] =
      (List.range g.length).map (fun j =>
        (fft_in_place s.domain_2n (ifft_in_place s.domain_n
          ((List.range g.length).map
            (fun i => (g.getD i []).getD j 0)))).getD r 0) := by
    intro r hr
    rw [heg]
    simp only [Grid.extend_grid]
    rw [getD_map_range _ _ hr]
  have hrowlen : ∀ r, r < 2 * g.length → (eg.getD r []).length = g.length := by
    intro r hr
    rw [hrow r hr]
    simp
  have hX : ∀ j r, r < 2 * g.length →
      (fft_in_place s.domain_2n (ifft_in_place s.domain_n
        ((List.range g.length).map
          (fun i => (g.getD i []).getD j 0)))).getD r 0 =
      ∑ t in Finset.range g.length,
        (s.domain_n.size_inv * ∑ l in Finset.range g.length,
          (g.getD l []).getD j 0 * s.domain_n.group_gen_inv ^ (l * t)) *
        s.domain_2n.group_gen ^ (r * t) := by
    intro j r hr
    rw [ext_pipeline_getD s.domain_n s.domain_2n _ g.length hdn hd2n
      (by simp) r hr]
    apply Finset.sum_congr rfl
    intro t _
    congr 2
    apply Finset.sum_congr rfl
    intro l hl
    rw [getD_map_range _ _ (Finset.mem_range.mp hl)]
  have heven : ∀ j i, i < g.length →
      (fft_in_place s.domain_2n (ifft_in_place s.domain_n
        ((List.range g.length).map
          (fun i' => (g.getD i' []).getD j 0)))).getD (2 * i) 0 =
      (g.getD i []).getD j 0 := by
    intro j i hi
    rw [hX j (2 * i) (by omega)]
    have hpow : ∀ t, s.domain_2n.group_gen ^ (2 * i * t) =
        s.domain_n.group_gen ^ (i * t) := by
      intro t
      rw [← hΩ2, ← pow_mul]
      congr 1
      ring
    have hc1 : ∑ t in Finset.range g.length,
        (s.domain_n.size_inv * ∑ l in Finset.range g.length,
          (g.getD l []).getD j 0 * s.domain_n.group_gen_inv ^ (l * t)) *
        s.domain_2n.group_gen ^ (2 * i * t) =
        ∑ t in Finset.range g.length,
        (s.domain_n.size_inv * ∑ l in Finset.range g.length,
          (g.getD l []).getD j 0 * s.domain_n.group_gen_inv ^ (l * t)) *
        s.domain_n.group_gen ^ (i * t) := by
      apply Finset.sum_congr rfl
      intro t _
      rw [hpow t]
    rw [hc1]
    exact idft_dft_point s.domain_n.group_gen s.domain_n.group_gen_inv
      s.domain_n.size_inv g.length hωn hinv hninv hprim
      (fun l => (g.getD l []).getD j 0) i hi
  have hcommit_row : ∀ r, r < 2 * g.length →
      KZG10.commit s.powers (eg.getD r []) =
        .ok (msmF s.powers.powers_of_g (eg.getD r [])) := by
    intro r hr
    exact commit_value s.powers _ (by omega) (by rw [hrowlen r hr]; exact hpw)
  -- unfold make_commits
  have hhalf : eg.length / 2 = g.length := by omega
  have hlist : (List.range (eg.length / 2)).map
      (fun i => KZG10.commit s.powers (eg.getD (2 * i) [])) =
      ((List.range g.length).map
        (fun i => msmF s.powers.powers_of_g (eg.getD (2 * i) []))).map
        Except.ok := by
    rw [hhalf, List.map_map]
    apply List.map_congr_left
    intro i hi
    exact hcommit_row (2 * i) (by
      have := List.mem_range.mp hi
      omega)
  have hmk : Grid.make_commits s eg =
      some (fft_in_place s.domain_2n (ifft_in_place s.domain_n
        ((List.range g.length).map
          (fun i => msmF s.powers.powers_of_g (eg.getD (2 * i) []))))) := by
    rw [Grid.make_commits, hlist, mapM_toOption_map_ok]
  refine ⟨_, hmk, ?_, ?_⟩
  · rw [fft_in_place_length, hd2n]
  · intro r hr
    rw [hcommit_row r hr]
    congr 1
    -- the commitment of row r equals the extended commitment at r
    rw [ext_pipeline_getD s.domain_n s.domain_2n _ g.length hdn hd2n
      (by simp) r hr]
    have hCi : ∀ i, i < g.length →
        ((List.range g.length).map
          (fun i' => msmF s.powers.powers_of_g (eg.getD (2 * i') []))).getD i 0 =
        ∑ u in Finset.range g.length,
          (g.getD i []).getD u 0 * s.powers.powers_of_g.getD u 0 := by
      intro i hi
      rw [getD_map_range _ _ hi, hrow (2 * i) (by omega),
        msmF_eq_sum_getD _ _ (by simp; exact hpw)]
      simp only [List.length_map, List.length_range]
      apply Finset.sum_congr rfl
      intro u hu
      rw [getD_map_range _ _ (Finset.mem_range.mp hu),
        heven u i hi]
    have hmsmrow : msmF s.powers.powers_of_g (eg.getD r []) =
        ∑ j in Finset.range g.length,
          (∑ t in Finset.range g.length,
            (s.domain_n.size_inv * ∑ l in Finset.range g.length,
              (g.getD l []).getD j 0 * s.domain_n.group_gen_inv ^ (l * t)) *
            s.domain_2n.group_gen ^ (r * t)) *
          s.powers.powers_of_g.getD j 0 := by
      rw [hrow r hr, msmF_eq_sum_getD _ _ (by simp; exact hpw)]
      simp only [List.length_map, List.length_range]
      apply Finset.sum_congr rfl
      intro j hj
      rw [getD_map_range _ _ (Finset.mem_range.mp hj),
        hX j r hr]
    rw [hmsmrow]
    have hsum : ∑ t in Finset.range g.length,
        (s.domain_n.size_inv * ∑ i in Finset.range g.length,
          ((List.range g.length).map
            (fun i' => msmF s.powers.powers_of_g (eg.getD (2 * i') []))).getD i 0 *
            s.domain_n.group_gen_inv ^ (i * t)) *
        s.domain_2n.group_gen ^ (r * t) =
        ∑ t in Finset.range g.length,
        (s.domain_n.size_inv * ∑ i in Finset.range g.length,
          (∑ u in Finset.range g.length,
            (g.getD i []).getD u 0 * s.powers.powers_of_g.getD u 0) *
            s.domain_n.group_gen_inv ^ (i * t)) *
        s.domain_2n.group_gen ^ (r * t) := by
      apply Finset.sum_congr rfl
      intro t _
      congr 2
      apply Finset.sum_congr rfl
      intro i hi
      rw [hCi i (Finset.mem_range.mp hi)]
    rw [hsum,
      triple_sum_swap g.length (fun i u => (g.getD i []).getD u 0)
        (fun u => s.powers.powers_of_g.getD u 0)
        (fun x => s.domain_n.group_gen_inv ^ x)
        (fun t => s.domain_2n.group_gen ^ (r * t)) s.domain_n.size_inv]

/-- Witness for C8 at a concrete 2×2 grid over `ZMod 97` with domains of
sizes 2 and 4 (`ω = 96 = -1`, `Ω = 22` with `22² = -1`) and a two-power
committer key. -/
theorem C8_grid_commit_extension_witness :
    ∃ cs, Grid.make_commits
        (Grid.Setup.mk (Powers.mk [1, 5] [1, 5]) (Domain.mk 2 96 96 49)
          (Domain.mk 4 22 75 73) : Grid.Setup Fq)
        (Grid.extend_grid
          (Grid.Setup.mk (Powers.mk [1, 5] [1, 5]) (Domain.mk 2 96 96 49)
            (Domain.mk 4 22 75 73)) [[1, 2], [3, 4]]) = some cs ∧
      cs.length = 2 * 2 ∧
      ∀ r < 2 * 2,
        KZG10.commit (Powers.mk [1, 5] [1, 5])
            ((Grid.extend_grid
              (Grid.Setup.mk (Powers.mk [1, 5] [1, 5]) (Domain.mk 2 96 96 49)
                (Domain.mk 4 22 75 73)) [[1, 2], [3, 4]]).getD r []) =
          .ok (cs.getD r 0) := by
  exact C8_grid_commit_extension
    (Grid.Setup.mk (Powers.mk [1, 5] [1, 5]) (Domain.mk 2 96 96 49)
      (Domain.mk 4 22 75 73)) [[1, 2], [3, 4]] 2 (by decide) (by decide)
    (by decide) (by decide) (by decide) (by decide) (by decide) (by decide)
    (by decide) (by decide) (by decide)

/-! ## KZG10 round trip (C1) -/

/-- Lemma: `commit` on a geometric powers list `[g, βg, β²g, …]` of positive length
succeeds for polynomials within capacity and returns `p(β) * g`. -/
lemma commit_powers_geometric (β g : F) (γ : List F) (n : Nat) (p : List F)
    (hn : 0 < n) (hp : p.length ≤ n) :
    KZG10.commit ⟨(List.range n).map (fun i => β ^ i * g), γ⟩ p =
      .ok (evalPoly p β * g) := by
  unfold KZG10.commit KZG10.check_degree_is_too_large
  rw [if_neg (by simp [KZG10.degreeL, Powers.size]; omega)]
  have hd := msmF_drop_leading (F := F) p ((List.range n).map (fun i => β ^ i * g))
  simp only [Powers.mk.injEq]
  rw [hd, msmF_geometric β g p n hp]

/-- Lemma: `open_with_witness_polynomial` has the same body as `commit`. -/
lemma open_with_witness_eq_commit (powers : Powers F) (w : List F) :
    KZG10.open_with_witness_polynomial powers w = KZG10.commit powers w := rfl

/-- Lemma: `open` on a geometric powers list of positive length succeeds for
polynomials within capacity and returns `q(β) * g`, where `q` is the quotient
of `p` by `(x - z)`. -/
lemma openPoly_powers_geometric (β g z : F) (γ : List F) (n : Nat) (p : List F)
    (hn : 0 < n) (hp : p.length ≤ n) :
    KZG10.openPoly ⟨(List.range n).map (fun i => β ^ i * g), γ⟩ p z =
      .ok (evalPoly ((synthAll p z).tail) β * g) := by
  unfold KZG10.openPoly KZG10.compute_witness_polynomial
    KZG10.check_degree_is_too_large
  rw [if_neg (by simp [KZG10.degreeL, Powers.size]; omega)]
  have hq : (polyDivQR p [-z, 1]).1 = (synthAll p z).tail := polyDivQR_linear z p
  have hqlen : ((synthAll p z).tail).length ≤ n := by
    rw [List.length_tail, synthAll_length]
    omega
  show KZG10.open_with_witness_polynomial _ (polyDivQR p [-z, 1]).1 = _
  rw [open_with_witness_eq_commit, hq,
    commit_powers_geometric β g γ n _ hn hqlen]

/-- C1: KZG10 round-trip correctness — for every SRS produced by `setup`,
every `(ck, vk)` produced by `trim` at a supported degree within the SRS
capacity, every polynomial of degree at most the trimmed degree and every
point `z`, the chained `commit`/`open`/`check` pipeline accepts: the pairing
equation `e(commitment - v*g, h) = e(proof_w, beta_h - z*h)` holds for
`v = p(z)`. -/
theorem C1_kzg_round_trip (max_degree d : Nat) (β g γg h : F) (p : List F)
    (z : F) (pp : UniversalParams F) (ck : Powers F) (vk : VerifierKey F)
    (hsetup : KZG10.setup max_degree β g γg h = .ok pp)
    (htrim : KZG10.trim pp d = .ok (ck, vk))
    (hd : (if d = 1 then 2 else d) ≤ max_degree)
    (hp : p.length ≤ d + 1) :
    (do
      let c ← KZG10.commit ck p
      let w ← KZG10.openPoly ck p z
      KZG10.check vk c z (evalPoly p z) w) = .ok true := by
  by_cases hmax : max_degree < 1
  · rw [KZG10.setup, if_pos hmax] at hsetup
    exact absurd hsetup (by simp)
  · rw [KZG10.setup, if_neg hmax] at hsetup
    injection hsetup with hpp
    subst hpp
    simp only [KZG10.trim] at htrim
    injection htrim with hpair
    injection hpair with hck hvk
    subst hck
    subst hvk
    set d' := if d = 1 then 2 else d with hd'
    have hdd : d ≤ d' := by
      rw [hd']
      split <;> omega
    have htake : ((List.range (max_degree + 1)).map (fun i => β ^ i * g)).take (d' + 1)
        = (List.range (d' + 1)).map (fun i => β ^ i * g) := by
      rw [← List.map_take, List.take_range, Nat.min_eq_left (by omega)]
    rw [htake]
    have hplen : p.length ≤ d' + 1 := by omega
    rw [commit_powers_geometric β g _ (d' + 1) p (by omega) hplen]
    rw [openPoly_powers_geometric β g z _ (d' + 1) p (by omega) hplen]
    have hhead : ((List.range (max_degree + 1)).map (fun i => β ^ i * g)).headD 0 = g := by
      have h1 : max_degree + 1 = (max_degree) + 1 := rfl
      rw [List.range_succ_eq_map]
      simp
    rw [hhead]
    show KZG10.check _ _ _ _ _ = _
    rw [KZG10.check]
    simp only [pairing, Except.ok.injEq, decide_eq_true_eq]
    have hdiv := synthAll_division_identity p z β
    rw [hdiv]
    ring

/-- Witness for C1 at `max_degree = 3`, `d = 3`, secret `β = 5`, generators
`g = γg = h = 1`, polynomial `p = 3x² + 2x + 1` and point `z = 7` over
`ZMod 97`. -/
theorem C1_kzg_round_trip_witness :
    ∃ pp ck vk, KZG10.setup (F := Fq) 3 5 1 1 1 = .ok pp ∧
      KZG10.trim pp 3 = .ok (ck, vk) ∧
      (do
        let c ← KZG10.commit ck [1, 2, 3]
        let w ← KZG10.openPoly ck [1, 2, 3] 7
        KZG10.check vk c 7 (evalPoly [1, 2, 3] 7) w) = .ok true := by
  refine ⟨_, _, _, rfl, rfl, ?_⟩
  exact C1_kzg_round_trip 3 3 5 1 1 1 [1, 2, 3] 7 _ _ _ rfl rfl
    (by decide) (by decide)

/-- C10: the streaming committer key's single-point `open` returns, as its
scalar component, exactly the Horner evaluation `p(z)` of the little-endian
coefficient vector, and on an empty coefficient vector it returns the zero
scalar. -/
theorem C10_streaming_open_returns_evaluation
    (ck : StreamingKzg.CommitterKey F) (p : List F) (z : F) :
    (ck.openPoly p z).1 = evalPoly p z ∧
      (ck.openPoly ([] : List F) z).1 = 0 := by
  constructor
  · rw [StreamingKzg.CommitterKey.openPoly]
    exact synthAll_headD p z
  · rfl

/-- C9: for a polynomial within the key's degree capacity (in canonical
coefficient form) and a single evaluation point `β`, the proof returned by
`open_multi_points` with the singleton point set `[β]` is exactly the proof
returned by the plain single-point `open` at `β`. -/
theorem C9_open_multi_points_singleton_eq_open
    (ck : StreamingKzg.CommitterKey F) (p : List F) (β : F)
    (hcanon : p.getLastD 1 ≠ 0) (hcap : p.length ≤ ck.powers_of_g.length) :
    ck.open_multi_points p [β] = (ck.openPoly p β).2 := by
  rw [StreamingKzg.CommitterKey.open_multi_points,
    StreamingKzg.CommitterKey.openPoly, vanishing_singleton,
    truncTrailingZeros_of_canonical p hcanon, StreamingKzg.CommitterKey.commit,
    polyDivQR_linear]

/-- Witness for C9 at the literal polynomial of the spec,
`f = 80x^6 + 80x^5 + 88x^4 + 3x^3 + 73x^2 + 7x + 24` (little-endian
`[24, 7, 73, 3, 88, 80, 80]`), the point `β = 53`, and a concrete committer
key of capacity 8. -/
theorem C9_open_multi_points_singleton_eq_open_witness :
    (([24, 7, 73, 3, 88, 80, 80] : List Fq).getLastD 1 ≠ 0 ∧
      ([24, 7, 73, 3, 88, 80, 80] : List Fq).length ≤
        (StreamingKzg.CommitterKey.new 7 3 5 1 1 : StreamingKzg.CommitterKey Fq).powers_of_g.length) ∧
    (StreamingKzg.CommitterKey.new 7 3 5 1 1 :
        StreamingKzg.CommitterKey Fq).open_multi_points
        [24, 7, 73, 3, 88, 80, 80] [53] =
      ((StreamingKzg.CommitterKey.new 7 3 5 1 1 :
        StreamingKzg.CommitterKey Fq).openPoly [24, 7, 73, 3, 88, 80, 80] 53).2 :=
  ⟨⟨by decide, by decide⟩,
    C9_open_multi_points_singleton_eq_open _ _ _ (by decide) (by decide)⟩

end PCB
